import Mathlib

/-!
Verification of the netwatch monthly-report core
(`tools/netwatch_report.py`).

Modelling conventions:
* A timestamp is a rational number of seconds.  Python naive `datetime`
  values are isomorphic to (proleptic-Gregorian day number, seconds within
  the day), so `t ↦ (⌊t / 86400⌋, t mod 86400)` models `datetime.date()`
  faithfully; `timedelta` subtraction becomes rational subtraction.
  Sorting ISO date strings lexicographically is chronological sorting, so
  calendar dates are modelled as integer day numbers ordered by `≤`.
* Optional numeric CSV fields (`wan_rtt_avg_ms`, `wan_loss_pct`) are
  `Option ℚ`: `none` models Python `None`.
* Python's `sorted` (stable ascending comparison sort) is modelled by
  `List.insertionSort (· ≤ ·)`; on numbers any correct ascending sort is
  extensionally identical.
* Python's `round` is round-half-to-even on the exact rational value
  (`pyround` below); for `round(0.95 * (n - 1))` the double-precision
  product rounds to the nearest double of `19 * (n - 1) / 20`, which for
  every half-integer case in the representable range is exact, so the
  rational model agrees with the float computation.
-/

/-- A coarse health bucket, the codomain of `as_bucket`
(the Python function returns one of the strings "OUTAGE", "DEGRADED",
"OK"). -/
inductive Bucket where
  | OK
  | DEGRADED
  | OUTAGE
deriving DecidableEq, Repr

/-- One monitoring reading after normalisation (`read_rows` output):
parsed timestamp `_ts`, stripped status string `_status`, optional WAN
loss / RTT numbers. -/
structure Sample where
  ts : ℚ
  status : String
  wan_loss : Option ℚ
  wan_rtt : Option ℚ
deriving DecidableEq, Repr

instance : Inhabited Sample := ⟨⟨0, "", none, none⟩⟩

/-- `OUTAGE_STATUSES` from the source. -/
def OUTAGE_STATUSES : List String :=
  ["LINK_DOWN", "NO_GATEWAY", "GW_DOWN", "WAN_DOWN", "DNS_DOWN"]

/-- `DEGRADED_STATUSES` from the source. -/
def DEGRADED_STATUSES : List String :=
  ["WAN_DEGRADED"]

/-- `as_bucket`: membership in the fixed status sets decides the bucket;
anything else is OK. -/
def as_bucket (status : String) : Bucket :=
  if status ∈ OUTAGE_STATUSES then Bucket.OUTAGE
  else if status ∈ DEGRADED_STATUSES then Bucket.DEGRADED
  else Bucket.OK

/-- A maximal run of consecutive samples sharing one bucket
(the dict built by `group_segments`).  `end_` models the Python key
`"end"` (`end` is reserved in Lean). -/
structure Segment where
  bucket : Bucket
  start : ℚ
  end_ : ℚ
  rows : ℕ
  first_status : String
deriving DecidableEq, Repr

/-- `dur`: the duration `classify_segments` attaches to a segment,
`s["end"] - s["start"]`. -/
def Segment.dur (s : Segment) : ℚ :=
  s.end_ - s.start

/-- The fresh one-sample segment `group_segments` opens for sample `r`. -/
def seg1 (r : Sample) : Segment :=
  { bucket := as_bucket r.status
    start := r.ts
    end_ := r.ts
    rows := 1
    first_status := r.status }

/-- Loop body of `group_segments`: `cur` is the open segment, the list is
the remaining input; extending updates `end_` and increments `rows`,
otherwise the open segment is closed and a new one is seeded. -/
def group_aux (cur : Segment) : List Sample → List Segment
  | [] => [cur]
  | r :: rest =>
    if as_bucket r.status = cur.bucket then
      group_aux { cur with end_ := r.ts, rows := cur.rows + 1 } rest
    else
      cur :: group_aux (seg1 r) rest

/-- `group_segments`: group consecutive rows by bucket. -/
def group_segments : List Sample → List Segment
  | [] => []
  | r :: rest => group_aux (seg1 r) rest

/-- Specification view of the segmenter: the partition of the input into
maximal consecutive same-bucket runs.  `c` is the first sample of the open
run (the one whose bucket and status seed the segment), `cs` the samples
appended after it. -/
def runs_aux (c : Sample) (cs : List Sample) : List Sample → List (List Sample)
  | [] => [c :: cs]
  | r :: rest =>
    if as_bucket r.status = as_bucket c.status then
      runs_aux c (cs ++ [r]) rest
    else
      (c :: cs) :: runs_aux r [] rest

/-- The maximal same-bucket runs of a sample sequence. -/
def runs : List Sample → List (List Sample)
  | [] => []
  | r :: rest => runs_aux r [] rest

/-- The segment summarising one run: bucket and representative status of
the first sample, `start`/`end_` the timestamps of the first and last
sample, `rows` the run length. -/
def run_seg (run : List Sample) : Segment :=
  { bucket := as_bucket (run.headD default).status
    start := (run.headD default).ts
    end_ := (run.getLastD default).ts
    rows := run.length
    first_status := (run.headD default).status }

/-- `classify_segments`: split segments into confirmed outages, blips and
degraded periods.  The thresholds `MIN_ROWS_FOR_OUTAGE` / `MIN_OUTAGE_SEC`
are environment-supplied configuration, passed here as the parameters
`minRows` / `minSec`. -/
def classify_segments (minRows : ℕ) (minSec : ℚ) :
    List Segment → List Segment × List Segment × List Segment
  | [] => ([], [], [])
  | s :: rest =>
    let (outages, blips, degraded) := classify_segments minRows minSec rest
    if s.bucket = Bucket.DEGRADED then (outages, blips, s :: degraded)
    else if s.bucket = Bucket.OK then (outages, blips, degraded)
    else if minRows ≤ s.rows ∨ minSec ≤ s.dur then (s :: outages, blips, degraded)
    else (outages, s :: blips, degraded)

/-- Loop of `availability_from_rows` over consecutive pairs: a negative
delta is skipped; otherwise the delta is added to `total`, and to `ok`
when the earlier sample's bucket is OK. -/
def avail_loop (total ok : ℚ) : List (Sample × Sample) → ℚ × ℚ
  | [] => (total, ok)
  | (prev, cur) :: rest =>
    let dt := cur.ts - prev.ts
    if dt < 0 then avail_loop total ok rest
    else avail_loop (total + dt) (if as_bucket prev.status = Bucket.OK then ok + dt else ok) rest

/-- `availability_from_rows`: percentage of observed time in OK bucket,
returned as `(availability_pct, observed_window, ok_time)`. -/
def availability_from_rows (rows : List Sample) : ℚ × ℚ × ℚ :=
  if rows.length < 2 then (100, 0, 0)
  else
    let p := avail_loop 0 0 (rows.zip rows.tail)
    if p.1 = 0 then (100, p.1, p.2)
    else (p.2 / p.1 * 100, p.1, p.2)

/-- Python's `round`: round half to even on the exact rational value. -/
def pyround (q : ℚ) : ℤ :=
  if q - (⌊q⌋ : ℚ) < 1 / 2 then ⌊q⌋
  else if 1 / 2 < q - (⌊q⌋ : ℚ) then ⌊q⌋ + 1
  else if ⌊q⌋ % 2 = 0 then ⌊q⌋ else ⌊q⌋ + 1

/-- `statistics.median`: middle element of the sorted values for odd
length, mean of the two middle elements for even length (only ever applied
to a non-empty list). -/
def median (xs : List ℚ) : ℚ :=
  let s := xs.insertionSort (· ≤ ·)
  let n := s.length
  if n % 2 = 1 then s.getD (n / 2) 0
  else (s.getD (n / 2 - 1) 0 + s.getD (n / 2) 0) / 2

/-- The statuses excluded from WAN-quality statistics (the inline set
literal in `wan_quality`). -/
def FULLY_DOWN : List String :=
  ["WAN_DOWN", "GW_DOWN", "NO_GATEWAY", "LINK_DOWN"]

/-- The RTT list comprehension of `wan_quality`: present `_wan_rtt` values
of samples whose status is not fully down. -/
def wan_rtts (rows : List Sample) : List ℚ :=
  rows.filterMap fun r => if r.status ∈ FULLY_DOWN then none else r.wan_rtt

/-- The loss list comprehension of `wan_quality`. -/
def wan_losses (rows : List Sample) : List ℚ :=
  rows.filterMap fun r => if r.status ∈ FULLY_DOWN then none else r.wan_loss

/-- The index `max(0, int(round(0.95*(n-1))))` used for the 95th
percentile, for `n` RTT values. -/
def p95_idx (n : ℕ) : ℕ :=
  (max 0 (pyround (19 * ((n : ℚ) - 1) / 20))).toNat

/-- The `p95` computed by `wan_quality` on a non-empty RTT list: the
sorted value at `p95_idx`. -/
def p95_of (rtts : List ℚ) : ℚ :=
  let sorted_r := rtts.insertionSort (· ≤ ·)
  sorted_r.getD (p95_idx sorted_r.length) 0

/-- The dict returned by `wan_quality` when some data is present. -/
structure WanSummary where
  rtt_p50_ms : Option ℚ
  rtt_p95_ms : Option ℚ
  loss_mean_pct : Option ℚ
  samples : ℕ
deriving DecidableEq, Repr

/-- `wan_quality`: summaries over WAN stats; `none` models the Python
`None` returned when neither metric has data. -/
def wan_quality (rows : List Sample) : Option WanSummary :=
  let rtts := wan_rtts rows
  let losses := wan_losses rows
  if rtts = [] ∧ losses = [] then none
  else some
    { rtt_p50_ms := if rtts = [] then none else some (median rtts)
      rtt_p95_ms := if rtts = [] then none else some (p95_of rtts)
      loss_mean_pct := if losses = [] then none else some (losses.sum / (losses.length : ℚ))
      samples := rtts.length }

/-- The calendar date of a timestamp: `datetime.date()` modelled as the
day number `⌊t / 86400⌋` (see the header comment). -/
def dayOf (t : ℚ) : ℤ :=
  ⌊t / 86400⌋

/-- The per-day record of `per_day_summary`. -/
structure DayStats where
  outage_dur : ℚ
  degraded_dur : ℚ
  outages : ℕ
  degraded : ℕ
deriving DecidableEq, Repr

/-- The `defaultdict` default record: zero durations, zero counts. -/
def dayZero : DayStats :=
  { outage_dur := 0, degraded_dur := 0, outages := 0, degraded := 0 }

/-- `defaultdict` update `daily[day] = f(daily[day])` on an association
list: update the entry in place if the key exists, else append a fresh
default-constructed entry (Python dicts keep insertion order). -/
def upd_day (d : ℤ) (f : DayStats → DayStats) :
    List (ℤ × DayStats) → List (ℤ × DayStats)
  | [] => [(d, f dayZero)]
  | (k, v) :: rest =>
    if k = d then (k, f v) :: rest else (k, v) :: upd_day d f rest

/-- `daily.setdefault(day, ...)`: ensure the key exists, inserting the
default record when absent, leaving existing entries unchanged. -/
def ensure_day (d : ℤ) (m : List (ℤ × DayStats)) : List (ℤ × DayStats) :=
  if d ∈ m.map Prod.fst then m else m ++ [(d, dayZero)]

/-- Accumulate one confirmed outage under the date of its `start`. -/
def add_outage (m : List (ℤ × DayStats)) (seg : Segment) : List (ℤ × DayStats) :=
  upd_day (dayOf seg.start) (fun st =>
    { st with outages := st.outages + 1, outage_dur := st.outage_dur + seg.dur }) m

/-- Accumulate one degraded segment under the date of its `start`. -/
def add_degraded (m : List (ℤ × DayStats)) (seg : Segment) : List (ℤ × DayStats) :=
  upd_day (dayOf seg.start) (fun st =>
    { st with degraded := st.degraded + 1, degraded_dur := st.degraded_dur + seg.dur }) m

/-- `per_day_summary`: per-day rollup of outages and degraded segments,
with an entry for every day seen in the raw rows, sorted by date. -/
def per_day_summary (rows : List Sample) (outages degraded : List Segment) :
    List (ℤ × DayStats) :=
  let daily := (degraded.foldl add_degraded (outages.foldl add_outage []))
  let daily := rows.foldl (fun m r => ensure_day (dayOf r.ts) m) daily
  daily.insertionSort (fun a b => a.1 ≤ b.1)

/-! ### Classifier lemmas -/

/-- `classify_segments` is extensionally three filters over the input. -/
theorem classify_segments_eq_filters (minRows : ℕ) (minSec : ℚ) (segs : List Segment) :
    classify_segments minRows minSec segs =
      (segs.filter fun s => decide (s.bucket = Bucket.OUTAGE ∧ (minRows ≤ s.rows ∨ minSec ≤ s.dur)),
       segs.filter fun s => decide (s.bucket = Bucket.OUTAGE ∧ ¬(minRows ≤ s.rows ∨ minSec ≤ s.dur)),
       segs.filter fun s => decide (s.bucket = Bucket.DEGRADED)) := by
  induction segs with
  | nil => rfl
  | cons s rest ih =>
    simp only [classify_segments, ih, List.filter_cons]
    rcases hb : s.bucket with _ | _ | _ <;>
      by_cases hq : minRows ≤ s.rows ∨ minSec ≤ s.dur <;>
        simp [hb, hq]

/-- C2: for every segment list and thresholds, a DEGRADED segment always
lands in the degraded list, an OK segment in none of the three lists, and
an OUTAGE segment in the outage list iff `minRows ≤ rows ∨ minSec ≤ dur`
(boundaries inclusive) and in the blip list otherwise; the three outputs
are pairwise disjoint and jointly cover all non-OK input segments. -/
theorem C2_classification (minRows : ℕ) (minSec : ℚ) (segs : List Segment) (s : Segment) :
    (s ∈ (classify_segments minRows minSec segs).1 ↔
      s ∈ segs ∧ s.bucket = Bucket.OUTAGE ∧ (minRows ≤ s.rows ∨ minSec ≤ s.dur))
    ∧ (s ∈ (classify_segments minRows minSec segs).2.1 ↔
      s ∈ segs ∧ s.bucket = Bucket.OUTAGE ∧ ¬(minRows ≤ s.rows ∨ minSec ≤ s.dur))
    ∧ (s ∈ (classify_segments minRows minSec segs).2.2 ↔
      s ∈ segs ∧ s.bucket = Bucket.DEGRADED)
    ∧ (s ∈ segs → s.bucket ≠ Bucket.OK →
      s ∈ (classify_segments minRows minSec segs).1 ∨
      s ∈ (classify_segments minRows minSec segs).2.1 ∨
      s ∈ (classify_segments minRows minSec segs).2.2)
    ∧ ¬(s ∈ (classify_segments minRows minSec segs).1 ∧
        s ∈ (classify_segments minRows minSec segs).2.1)
    ∧ ¬(s ∈ (classify_segments minRows minSec segs).1 ∧
        s ∈ (classify_segments minRows minSec segs).2.2)
    ∧ ¬(s ∈ (classify_segments minRows minSec segs).2.1 ∧
        s ∈ (classify_segments minRows minSec segs).2.2) := by
  rw [classify_segments_eq_filters]
  refine ⟨by simp [List.mem_filter, and_assoc], by simp [List.mem_filter, and_assoc],
    by simp [List.mem_filter], ?_, ?_, ?_, ?_⟩
  · intro hs hne
    cases hb : s.bucket with
    | OK => exact absurd hb hne
    | DEGRADED => exact Or.inr (Or.inr (by simp [List.mem_filter, hs, hb]))
    | OUTAGE =>
      by_cases hq : minRows ≤ s.rows ∨ minSec ≤ s.dur
      · exact Or.inl (by simp [List.mem_filter, hs, hb, hq])
      · refine Or.inr (Or.inl ?_)
        simp only [List.mem_filter, decide_eq_true_eq]
        exact ⟨hs, hb, hq⟩
  · rintro ⟨h1, h2⟩
    simp only [List.mem_filter, decide_eq_true_eq] at h1 h2
    exact h2.2.2 h1.2.2
  · rintro ⟨h1, h2⟩
    simp only [List.mem_filter, decide_eq_true_eq] at h1 h2
    exact absurd (h1.2.1.symm.trans h2.2) (by decide)
  · rintro ⟨h1, h2⟩
    simp only [List.mem_filter, decide_eq_true_eq] at h1 h2
    exact absurd (h1.2.1.symm.trans h2.2) (by decide)

/-- Witness for C2 at a concrete outage segment. -/
theorem C2_classification_witness :
    let s : Segment := { bucket := Bucket.OUTAGE, start := 10, end_ := 30,
                         rows := 3, first_status := "LINK_DOWN" }
    s ∈ (classify_segments 2 20 [s]).1 :=
  ((C2_classification 2 20 _ _).1).mpr ⟨List.mem_singleton.mpr rfl, rfl, Or.inl (by norm_num)⟩

/-! ### Availability lemmas -/

/-- Per-pair contribution to the observed window. -/
def windowContrib (pc : Sample × Sample) : ℚ :=
  if pc.2.ts - pc.1.ts < 0 then 0 else pc.2.ts - pc.1.ts

/-- Per-pair contribution to the OK time. -/
def okContrib (pc : Sample × Sample) : ℚ :=
  if pc.2.ts - pc.1.ts < 0 then 0
  else if as_bucket pc.1.status = Bucket.OK then pc.2.ts - pc.1.ts else 0

/-- The availability loop computes the sums of the per-pair
contributions. -/
theorem avail_loop_eq (ps : List (Sample × Sample)) :
    ∀ total ok : ℚ, avail_loop total ok ps =
      (total + (ps.map windowContrib).sum, ok + (ps.map okContrib).sum) := by
  induction ps with
  | nil => intro total ok; simp [avail_loop]
  | cons pc rest ih =>
    intro total ok
    obtain ⟨prev, cur⟩ := pc
    by_cases hneg : cur.ts - prev.ts < 0
    · simp only [avail_loop, hneg, if_true, ih, windowContrib, okContrib, List.map_cons,
        List.sum_cons]
      simp [hneg]
    · by_cases hok : as_bucket prev.status = Bucket.OK
      · simp only [avail_loop, hneg, if_false, hok, if_true, ih, windowContrib, okContrib,
          List.map_cons, List.sum_cons]
        simp [hneg, hok]
        constructor <;> ring_nf
      · simp only [avail_loop, hneg, if_false, hok, ih, windowContrib, okContrib,
          List.map_cons, List.sum_cons]
        simp [hneg, hok]
        ring_nf

/-- The loop keeps `0 ≤ ok ≤ total`. -/
theorem avail_loop_bounds (ps : List (Sample × Sample)) :
    ∀ total ok : ℚ, 0 ≤ ok → ok ≤ total →
      0 ≤ (avail_loop total ok ps).2 ∧ (avail_loop total ok ps).2 ≤ (avail_loop total ok ps).1 := by
  induction ps with
  | nil => intro total ok h0 h1; exact ⟨h0, h1⟩
  | cons pc rest ih =>
    intro total ok h0 h1
    obtain ⟨prev, cur⟩ := pc
    by_cases hneg : cur.ts - prev.ts < 0
    · simpa [avail_loop, hneg] using ih total ok h0 h1
    · push_neg at hneg
      by_cases hok : as_bucket prev.status = Bucket.OK
      · simpa [avail_loop, not_lt.mpr hneg, hok] using
          ih (total + (cur.ts - prev.ts)) (ok + (cur.ts - prev.ts))
            (by linarith) (by linarith)
      · simpa [avail_loop, not_lt.mpr hneg, hok] using
          ih (total + (cur.ts - prev.ts)) ok h0 (by linarith)

/-- Closed form of `availability_from_rows` for at least two samples. -/
theorem availability_eq (rows : List Sample) (h : ¬rows.length < 2) :
    availability_from_rows rows =
      (if ((rows.zip rows.tail).map windowContrib).sum = 0
       then ((100 : ℚ), ((rows.zip rows.tail).map windowContrib).sum,
         ((rows.zip rows.tail).map okContrib).sum)
       else (((rows.zip rows.tail).map okContrib).sum /
           ((rows.zip rows.tail).map windowContrib).sum * 100,
         ((rows.zip rows.tail).map windowContrib).sum,
         ((rows.zip rows.tail).map okContrib).sum)) := by
  simp only [availability_from_rows, h, if_false, avail_loop_eq, zero_add]

/-- C3: for at least two samples, the observed window is the sum over
consecutive pairs of the non-negative timestamp deltas (a negative delta
contributes nothing), the OK time is the sum of those deltas whose earlier
sample is in the OK bucket, and whenever the observed window is nonzero
the availability percentage is `ok / total * 100`. -/
theorem C3_availability_pairs (rows : List Sample) (h : 2 ≤ rows.length) :
    (availability_from_rows rows).2.1 = ((rows.zip rows.tail).map windowContrib).sum
    ∧ (availability_from_rows rows).2.2 = ((rows.zip rows.tail).map okContrib).sum
    ∧ ((availability_from_rows rows).2.1 ≠ 0 →
      (availability_from_rows rows).1 =
        (availability_from_rows rows).2.2 / (availability_from_rows rows).2.1 * 100) := by
  rw [availability_eq rows (not_lt.mpr h)]
  by_cases hz : ((rows.zip rows.tail).map windowContrib).sum = 0
  · simp [hz]
  · simp [hz]

/-- Witness for C3 at a concrete two-sample input. -/
theorem C3_availability_pairs_witness :
    (2 ≤ ([⟨0, "OK", none, none⟩, ⟨10, "LINK_DOWN", none, none⟩] : List Sample).length)
    ∧ (availability_from_rows [⟨0, "OK", none, none⟩, ⟨10, "LINK_DOWN", none, none⟩]).2.1 =
      ((([⟨0, "OK", none, none⟩, ⟨10, "LINK_DOWN", none, none⟩] :
        List Sample).zip ([⟨10, "LINK_DOWN", none, none⟩] : List Sample)).map
          windowContrib).sum :=
  ⟨by norm_num, (C3_availability_pairs _ (by norm_num)).1⟩

/-- For chronologically ordered samples the observed window telescopes to
last minus first timestamp. -/
theorem window_sum_sorted (rows : List Sample)
    (h : rows.Chain' fun a b => a.ts ≤ b.ts) :
    ((rows.zip rows.tail).map windowContrib).sum =
      (rows.getLastD default).ts - (rows.headD default).ts := by
  induction rows with
  | nil => simp
  | cons a rest ih =>
    cases rest with
    | nil => simp
    | cons b rest2 =>
      rw [List.chain'_cons] at h
      have hw : windowContrib (a, b) = b.ts - a.ts := by
        simp only [windowContrib]
        rw [if_neg (not_lt.mpr (sub_nonneg.mpr h.1))]
      have ihe := ih h.2
      simp only [List.tail_cons] at ihe ⊢
      rw [List.zip_cons_cons, List.map_cons, List.sum_cons, hw, ihe]
      simp only [List.getLastD_cons, List.headD_cons]
      ring

/-- If every sample is in the OK bucket, each pair contributes the same to
OK time as to the observed window. -/
theorem ok_sum_all_ok (rows : List Sample)
    (h : ∀ r ∈ rows, as_bucket r.status = Bucket.OK) :
    ((rows.zip rows.tail).map okContrib).sum =
      ((rows.zip rows.tail).map windowContrib).sum := by
  have : ∀ pc ∈ rows.zip rows.tail, okContrib pc = windowContrib pc := by
    rintro ⟨x, y⟩ hpc
    have h1 : x ∈ rows := (List.of_mem_zip hpc).1
    simp [okContrib, windowContrib, h x h1]
  rw [List.map_congr_left this]

/-- C4: the availability percentage always lies in `[0, 100]`; it is
exactly `100` with fewer than two samples or a zero observed window; and
on a chronologically ordered all-OK sequence it is `100` with
`observed_window = ok_time = last - first`. -/
theorem C4_availability_range (rows : List Sample) :
    (0 ≤ (availability_from_rows rows).1 ∧ (availability_from_rows rows).1 ≤ 100)
    ∧ (rows.length < 2 ∨ (availability_from_rows rows).2.1 = 0 →
        (availability_from_rows rows).1 = 100)
    ∧ ((rows.Chain' fun a b => a.ts ≤ b.ts) →
        (∀ r ∈ rows, as_bucket r.status = Bucket.OK) →
        (availability_from_rows rows).1 = 100
        ∧ (availability_from_rows rows).2.1 =
            (rows.getLastD default).ts - (rows.headD default).ts
        ∧ (availability_from_rows rows).2.2 = (availability_from_rows rows).2.1) := by
  by_cases h2 : rows.length < 2
  · have he : availability_from_rows rows = (100, 0, 0) := by
      simp [availability_from_rows, h2]
    have hshort : (rows.getLastD default).ts - (rows.headD default).ts = 0 := by
      cases rows with
      | nil => simp
      | cons a rest =>
        cases rest with
        | nil => simp
        | cons b rest2 => simp at h2; omega
    rw [he]
    exact ⟨⟨by norm_num, le_rfl⟩, fun _ => rfl, fun hc _ => ⟨rfl, hshort.symm, rfl⟩⟩
  · have hbd0 := avail_loop_bounds (rows.zip rows.tail) 0 0 le_rfl le_rfl
    rw [avail_loop_eq] at hbd0
    simp only [zero_add] at hbd0
    rw [availability_eq rows h2]
    by_cases hz : ((rows.zip rows.tail).map windowContrib).sum = 0
    · rw [if_pos hz]
      exact ⟨⟨by norm_num, le_rfl⟩, fun _ => rfl,
        fun hc hok => ⟨rfl, window_sum_sorted rows hc, ok_sum_all_ok rows hok⟩⟩
    · rw [if_neg hz]
      have hw0 : 0 < ((rows.zip rows.tail).map windowContrib).sum :=
        lt_of_le_of_ne (hbd0.1.trans hbd0.2) (Ne.symm hz)
      refine ⟨⟨?_, ?_⟩, ?_, fun hc hok => ⟨?_, window_sum_sorted rows hc, ok_sum_all_ok rows hok⟩⟩
      · exact mul_nonneg (div_nonneg hbd0.1 hw0.le) (by norm_num)
      · calc ((rows.zip rows.tail).map okContrib).sum /
              ((rows.zip rows.tail).map windowContrib).sum * 100
            ≤ 1 * 100 := by
              have := (div_le_one hw0).mpr hbd0.2
              nlinarith
          _ = 100 := one_mul 100
      · rintro (h2bad | hzbad)
        · exact absurd h2bad h2
        · exact absurd hzbad hz
      · rw [ok_sum_all_ok rows hok, div_self hz, one_mul]

/-- Witness for C4 at a concrete ordered all-OK input. -/
theorem C4_availability_range_witness :
    (availability_from_rows [⟨0, "OK", none, none⟩, ⟨30, "OK", none, none⟩]).1 = 100
    ∧ (availability_from_rows [⟨0, "OK", none, none⟩, ⟨30, "OK", none, none⟩]).2.1 = 30 := by
  have h := (C4_availability_range
    [⟨0, "OK", none, none⟩, ⟨30, "OK", none, none⟩]).2.2
    (by simp [List.chain'_cons]) (by decide)
  refine ⟨h.1, h.2.1.trans ?_⟩
  norm_num [List.getLastD, List.headD]

/-! ### Percentile lemmas -/

/-- `pyround` never exceeds the floor plus one. -/
theorem pyround_le_floor_add_one (q : ℚ) : pyround q ≤ ⌊q⌋ + 1 := by
  unfold pyround
  split_ifs <;> omega

/-- The nearest-rank index is always in range: `p95_idx n < n` for
non-empty data. -/
theorem p95_idx_lt (n : ℕ) (h : 1 ≤ n) : p95_idx n < n := by
  rcases Nat.lt_or_ge n 2 with h2 | h2
  · have hn1 : n = 1 := by omega
    subst hn1
    norm_num [p95_idx, pyround]
  · have hq : (19 * ((n : ℚ) - 1) / 20) < ((n : ℤ) - 1 : ℤ) := by
      push_cast
      have : (2 : ℚ) ≤ (n : ℚ) := by exact_mod_cast h2
      nlinarith
    have hfl : ⌊(19 * ((n : ℚ) - 1) / 20)⌋ < (n : ℤ) - 1 := Int.floor_lt.mpr (by
      exact_mod_cast hq)
    have hpy : pyround (19 * ((n : ℚ) - 1) / 20) ≤ (n : ℤ) - 1 := by
      have := pyround_le_floor_add_one (19 * ((n : ℚ) - 1) / 20)
      omega
    unfold p95_idx
    omega

/-- Modelled from the spec's description of nearest-rank selection: sort
ascending, take the value at index `round(0.95 * (n - 1))` clamped to
`[0, n - 1]`, with no interpolation. -/
def p95_spec (rtts : List ℚ) : ℚ :=
  let s := rtts.insertionSort (· ≤ ·)
  s.getD (min ((s.length : ℤ) - 1)
    (max 0 (pyround (19 * ((s.length : ℚ) - 1) / 20)))).toNat 0

/-- C5: on every non-empty RTT list the code's 95th percentile is exactly
the spec's clamped nearest-rank selection, and the selection index is in
range. -/
theorem C5_p95_nearest_rank (rtts : List ℚ) (h : rtts ≠ []) :
    p95_of rtts = p95_spec rtts ∧ p95_idx rtts.length < rtts.length := by
  have hn : 1 ≤ rtts.length := List.length_pos.mpr h
  have hlen : (rtts.insertionSort (· ≤ ·)).length = rtts.length :=
    List.length_insertionSort _ _
  constructor
  · have hlt : p95_idx rtts.length < rtts.length := p95_idx_lt _ hn
    unfold p95_of p95_spec p95_idx
    dsimp only
    rw [hlen]
    congr 1
    unfold p95_idx at hlt
    omega
  · exact p95_idx_lt _ hn

/-- Witness for C5 at the spec's own example, checking `p95 = 100`. -/
theorem C5_p95_nearest_rank_witness :
    (([10, 20, 30, 40, 50, 60, 70, 80, 90, 100] : List ℚ) ≠ [])
    ∧ p95_of [10, 20, 30, 40, 50, 60, 70, 80, 90, 100] = 100 :=
  ⟨by simp,
    ((C5_p95_nearest_rank [10, 20, 30, 40, 50, 60, 70, 80, 90, 100] (by simp)).1).trans
      (by
        norm_num [p95_spec, pyround, List.insertionSort, List.orderedInsert]
        rfl)⟩

/-! ### WAN quality -/

/-- C6: the WAN summary is absent iff no RTT and no loss value survives
the status filter, and the collected value lists are exactly the present
fields of the samples whose status is not fully down (collected
independently, so a sample may contribute one metric without the
other). -/
theorem C6_wan_filter (rows : List Sample) :
    (wan_quality rows = none ↔ wan_rtts rows = [] ∧ wan_losses rows = [])
    ∧ wan_rtts rows =
        ((rows.filter fun r => decide (r.status ∉ FULLY_DOWN)).filterMap Sample.wan_rtt)
    ∧ wan_losses rows =
        ((rows.filter fun r => decide (r.status ∉ FULLY_DOWN)).filterMap Sample.wan_loss) := by
  refine ⟨?_, ?_, ?_⟩
  · unfold wan_quality
    by_cases h : wan_rtts rows = [] ∧ wan_losses rows = []
    · simp [h]
    · simp [h]
  · induction rows with
    | nil => rfl
    | cons r rest ih =>
      by_cases hr : r.status ∈ FULLY_DOWN
      · simp [wan_rtts, List.filterMap_cons, List.filter_cons, hr] at ih ⊢
        exact ih
      · cases hv : r.wan_rtt <;>
          simp [wan_rtts, List.filterMap_cons, List.filter_cons, hr, hv, decide_not] <;>
          simpa [wan_rtts, decide_not] using ih
  · induction rows with
    | nil => rfl
    | cons r rest ih =>
      by_cases hr : r.status ∈ FULLY_DOWN
      · simp [wan_losses, List.filterMap_cons, List.filter_cons, hr] at ih ⊢
        exact ih
      · cases hv : r.wan_loss <;>
          simp [wan_losses, List.filterMap_cons, List.filter_cons, hr, hv, decide_not] <;>
          simpa [wan_losses, decide_not] using ih

/-- C9: `DNS_DOWN` is an OUTAGE-bucket status yet is not excluded from
WAN-quality statistics, so a DNS_DOWN sample's present RTT and loss values
are collected. -/
theorem C9_dns_down_in_wan (rows : List Sample) (r : Sample) (hr : r ∈ rows)
    (hs : r.status = "DNS_DOWN") :
    as_bucket r.status = Bucket.OUTAGE
    ∧ (r.status ∈ OUTAGE_STATUSES ∧ r.status ∉ FULLY_DOWN)
    ∧ (∀ x, r.wan_rtt = some x → x ∈ wan_rtts rows)
    ∧ (∀ x, r.wan_loss = some x → x ∈ wan_losses rows) := by
  have hmem : r.status ∉ FULLY_DOWN := by rw [hs]; decide
  refine ⟨by rw [hs]; rfl, ⟨by rw [hs]; decide, hmem⟩, ?_, ?_⟩
  · intro x hx
    exact List.mem_filterMap.mpr ⟨r, hr, by rw [if_neg hmem, hx]⟩
  · intro x hx
    exact List.mem_filterMap.mpr ⟨r, hr, by rw [if_neg hmem, hx]⟩

/-- Witness for C9 at a concrete DNS_DOWN sample carrying an RTT. -/
theorem C9_dns_down_in_wan_witness :
    (25 : ℚ) ∈ wan_rtts [⟨0, "DNS_DOWN", none, some 25⟩] :=
  (C9_dns_down_in_wan [⟨0, "DNS_DOWN", none, some 25⟩] ⟨0, "DNS_DOWN", none, some 25⟩
    (List.mem_singleton.mpr rfl) rfl).2.2.1 25 rfl

/-- C10: the reported `samples` field counts only collected RTT values;
an input whose usable samples carry losses but no RTTs yields a present
summary with a mean loss, absent percentiles and `samples = 0`. -/
theorem C10_samples_counts_rtts (rows : List Sample) (w : WanSummary)
    (h : wan_quality rows = some w) :
    w.samples = (wan_rtts rows).length
    ∧ wan_quality [⟨0, "OK", some 5, none⟩] =
        some { rtt_p50_ms := none, rtt_p95_ms := none,
               loss_mean_pct := some 5, samples := 0 } := by
  constructor
  · unfold wan_quality at h
    by_cases hb : wan_rtts rows = [] ∧ wan_losses rows = []
    · simp [hb] at h
    · simp only [hb, if_false] at h
      cases h
      rfl
  · simp +decide [wan_quality, wan_rtts, wan_losses, FULLY_DOWN, List.filterMap_cons]

/-- Witness for C10 at a loss-only input. -/
theorem C10_samples_counts_rtts_witness :
    ({ rtt_p50_ms := none, rtt_p95_ms := none,
       loss_mean_pct := some 5, samples := 0 } : WanSummary).samples =
      (wan_rtts [⟨0, "OK", some 5, none⟩]).length :=
  (C10_samples_counts_rtts [⟨0, "OK", some 5, none⟩] _
    (by simp +decide [wan_quality, wan_rtts, wan_losses, FULLY_DOWN, List.filterMap_cons])).1

/-! ### Totality of the core stages -/

/-- C8: every core stage is total.  The only partial primitives in the
source are guarded: the p95 index stays within the sorted list's bounds,
a zero observed window takes the guarded 100% branch instead of dividing,
the loss mean is only formed from a non-empty loss list, and every stage
returns a value on empty input. -/
theorem C8_totality (rows : List Sample) (minRows : ℕ) (minSec : ℚ) :
    (wan_rtts rows ≠ [] →
      p95_idx ((wan_rtts rows).insertionSort (· ≤ ·)).length <
        ((wan_rtts rows).insertionSort (· ≤ ·)).length)
    ∧ ((availability_from_rows rows).2.1 = 0 → (availability_from_rows rows).1 = 100)
    ∧ (∀ w, wan_quality rows = some w → wan_losses rows = [] → w.loss_mean_pct = none)
    ∧ group_segments [] = []
    ∧ classify_segments minRows minSec [] = ([], [], [])
    ∧ availability_from_rows [] = (100, 0, 0)
    ∧ wan_quality [] = none
    ∧ per_day_summary [] [] [] = [] := by
  refine ⟨?_, ?_, ?_, rfl, rfl, rfl, rfl, rfl⟩
  · intro h
    rw [List.length_insertionSort]
    exact p95_idx_lt _ (List.length_pos.mpr h)
  · intro hz
    by_cases h2 : rows.length < 2
    · simp [availability_from_rows, h2]
    · rw [availability_eq rows h2] at hz ⊢
      by_cases hw : ((rows.zip rows.tail).map windowContrib).sum = 0
      · rw [if_pos hw]
      · rw [if_neg hw] at hz
        exact absurd hz hw
  · intro w hw hlosses
    unfold wan_quality at hw
    by_cases hb : wan_rtts rows = [] ∧ wan_losses rows = []
    · simp [hb] at hw
    · simp only [hb, if_false] at hw
      cases hw
      simp [hlosses]

/-- Witness for C8 at a concrete RTT-carrying input. -/
theorem C8_totality_witness :
    p95_idx ((wan_rtts [⟨0, "OK", none, some 10⟩]).insertionSort (· ≤ ·)).length <
      ((wan_rtts [⟨0, "OK", none, some 10⟩]).insertionSort (· ≤ ·)).length :=
  (C8_totality [⟨0, "OK", none, some 10⟩] 2 20).1
    (by simp +decide [wan_rtts, FULLY_DOWN, List.filterMap_cons])

/-! ### Segmenter lemmas -/

/-- A one-sample run summarises to the freshly opened segment. -/
theorem run_seg_singleton (r : Sample) : run_seg [r] = seg1 r := rfl

/-- Appending a sample to a run updates exactly the fields the segmenter
mutates: `end_` and `rows`. -/
theorem run_seg_append (c : Sample) (cs : List Sample) (r : Sample) :
    run_seg (c :: (cs ++ [r])) =
      { run_seg (c :: cs) with end_ := r.ts, rows := (run_seg (c :: cs)).rows + 1 } := by
  have hlast : (c :: (cs ++ [r])).getLastD default = r := by
    show ((c :: cs) ++ [r]).getLastD default = r
    exact List.getLastD_concat _ _ _
  simp only [run_seg, hlast, List.headD_cons, List.length_cons, List.length_append,
    List.length_singleton]
  norm_num

/-- The segmenter loop is the run partition mapped through `run_seg`. -/
theorem group_aux_eq_runs (rest : List Sample) :
    ∀ (c : Sample) (cs : List Sample),
      group_aux (run_seg (c :: cs)) rest = (runs_aux c cs rest).map run_seg := by
  induction rest with
  | nil => intro c cs; rfl
  | cons r rest ih =>
    intro c cs
    by_cases hb : as_bucket r.status = as_bucket c.status
    · have hcond : as_bucket r.status = (run_seg (c :: cs)).bucket := hb
      simp only [group_aux, runs_aux]
      rw [if_pos hcond, if_pos hb, ← run_seg_append]
      exact ih c (cs ++ [r])
    · have hcond : ¬as_bucket r.status = (run_seg (c :: cs)).bucket := hb
      simp only [group_aux, runs_aux]
      rw [if_neg hcond, if_neg hb, List.map_cons, ← run_seg_singleton]
      exact congrArg _ (ih r [])

/-- `group_segments` summarises exactly the maximal same-bucket runs. -/
theorem group_segments_eq_runs (rows : List Sample) :
    group_segments rows = (runs rows).map run_seg := by
  cases rows with
  | nil => rfl
  | cons r rest =>
    show group_aux (seg1 r) rest = (runs_aux r [] rest).map run_seg
    rw [← run_seg_singleton]
    exact group_aux_eq_runs rest r []

/-- The runs concatenate back to the input. -/
theorem runs_aux_join (rest : List Sample) :
    ∀ (c : Sample) (cs : List Sample),
      (runs_aux c cs rest).flatten = c :: (cs ++ rest) := by
  induction rest with
  | nil => intro c cs; simp [runs_aux]
  | cons r rest ih =>
    intro c cs
    by_cases hb : as_bucket r.status = as_bucket c.status
    · rw [runs_aux, if_pos hb, ih c (cs ++ [r])]
      simp
    · rw [runs_aux, if_neg hb]
      simp [ih r []]

/-- The first run produced by the loop starts with the seeding sample. -/
theorem runs_aux_head (rest : List Sample) :
    ∀ (c : Sample) (cs : List Sample),
      ∃ cs2 more, runs_aux c cs rest = (c :: cs2) :: more := by
  induction rest with
  | nil => intro c cs; exact ⟨cs, [], rfl⟩
  | cons r rest ih =>
    intro c cs
    by_cases hb : as_bucket r.status = as_bucket c.status
    · rw [runs_aux, if_pos hb]
      exact ih c (cs ++ [r])
    · rw [runs_aux, if_neg hb]
      exact ⟨cs, runs_aux r [] rest, rfl⟩

/-- Adjacent runs have different buckets (maximality). -/
theorem runs_aux_chain (rest : List Sample) :
    ∀ (c : Sample) (cs : List Sample),
      (runs_aux c cs rest).Chain' fun u v =>
        as_bucket (u.headD default).status ≠ as_bucket (v.headD default).status := by
  induction rest with
  | nil => intro c cs; exact List.chain'_singleton _
  | cons r rest ih =>
    intro c cs
    by_cases hb : as_bucket r.status = as_bucket c.status
    · rw [runs_aux, if_pos hb]
      exact ih c (cs ++ [r])
    · rw [runs_aux, if_neg hb]
      obtain ⟨cs2, more, heq⟩ := runs_aux_head rest r []
      rw [heq]
      refine List.chain'_cons.mpr ⟨?_, heq ▸ ih r []⟩
      simpa using fun h => hb h.symm

/-- The run heads form a sublist of the input. -/
theorem runs_aux_heads_sublist (rest : List Sample) :
    ∀ (c : Sample) (cs : List Sample),
      ((runs_aux c cs rest).map fun run => run.headD default).Sublist (c :: (cs ++ rest)) := by
  induction rest with
  | nil =>
    intro c cs
    simp only [runs_aux, List.map_cons, List.map_nil, List.headD_cons, List.append_nil]
    exact List.Sublist.cons₂ c (List.nil_sublist cs)
  | cons r rest ih =>
    intro c cs
    by_cases hb : as_bucket r.status = as_bucket c.status
    · rw [runs_aux, if_pos hb]
      have h2 := ih c (cs ++ [r])
      simpa [List.append_assoc] using h2
    · rw [runs_aux, if_neg hb]
      simp only [List.map_cons, List.headD_cons]
      refine List.Sublist.cons₂ c ?_
      have h2 := ih r []
      simp only [List.nil_append] at h2
      exact h2.trans (List.sublist_append_right cs (r :: rest))

instance : IsTrans Sample fun a b => a.ts ≤ b.ts :=
  ⟨fun _ _ _ h1 h2 => le_trans h1 h2⟩

/-- C1: for a chronologically ordered input, the segmenter's output is
exactly the summaries of the maximal same-bucket runs (whose concatenation
is the input, so each segment's `start`/`end_` are the timestamps of the
first/last sample of its run), adjacent segments never share a bucket, the
row counts sum to the input length, segments are ordered by start time, a
single-row segment has `start = end_` and zero duration, and empty input
gives empty output. -/
theorem C1_segmenter (rows : List Sample)
    (hsorted : rows.Chain' fun a b => a.ts ≤ b.ts) :
    group_segments rows = (runs rows).map run_seg
    ∧ (runs rows).flatten = rows
    ∧ (group_segments rows).Chain' (fun s t => s.bucket ≠ t.bucket)
    ∧ ((group_segments rows).map Segment.rows).sum = rows.length
    ∧ (group_segments rows).Pairwise (fun s t => s.start ≤ t.start)
    ∧ (∀ run ∈ runs rows, (run_seg run).start = (run.headD default).ts
        ∧ (run_seg run).end_ = (run.getLastD default).ts
        ∧ (run_seg run).rows = run.length)
    ∧ (∀ s ∈ group_segments rows, s.rows = 1 → s.start = s.end_ ∧ s.dur = 0)
    ∧ (rows = [] → group_segments rows = []) := by
  have heq := group_segments_eq_runs rows
  have hflat : (runs rows).flatten = rows := by
    cases rows with
    | nil => rfl
    | cons r rest => simpa using runs_aux_join rest r []
  refine ⟨heq, hflat, ?_, ?_, ?_, fun run _ => ⟨rfl, rfl, rfl⟩, ?_, ?_⟩
  · rw [heq, List.chain'_map]
    cases rows with
    | nil => exact List.chain'_nil
    | cons r rest => exact runs_aux_chain rest r []
  · rw [heq, List.map_map]
    have hcomp : (Segment.rows ∘ run_seg) = fun run : List Sample => run.length := rfl
    rw [hcomp, ← List.length_flatten, hflat]
  · have hpw : rows.Pairwise fun a b => a.ts ≤ b.ts :=
      List.chain'_iff_pairwise.mp hsorted
    have hheads : ((runs rows).map fun run => run.headD default).Pairwise
        (fun a b => a.ts ≤ b.ts) := by
      cases rows with
      | nil => simp [runs]
      | cons r rest =>
        exact hpw.sublist (runs_aux_heads_sublist rest r [])
    have hruns2 : (runs rows).Pairwise
        (fun u v => (u.headD default).ts ≤ (v.headD default).ts) :=
      List.Pairwise.of_map (fun run => run.headD default) (fun a b h => h) hheads
    rw [heq]
    exact List.Pairwise.map run_seg (fun a b h => h) hruns2
  · intro s hs h1
    rw [heq] at hs
    obtain ⟨run, hrun, hseg⟩ := List.mem_map.mp hs
    have hlen : run.length = 1 := by
      rw [← hseg] at h1
      exact h1
    obtain ⟨x, hx⟩ := List.length_eq_one.mp hlen
    subst hx
    rw [← hseg]
    exact ⟨rfl, sub_self _⟩
  · intro h
    subst h
    rfl

/-- Witness for C1 at a concrete ordered five-sample scenario. -/
theorem C1_segmenter_witness :
    group_segments [⟨0, "OK", none, none⟩, ⟨10, "LINK_DOWN", none, none⟩,
        ⟨20, "LINK_DOWN", none, none⟩, ⟨30, "LINK_DOWN", none, none⟩,
        ⟨40, "OK", none, none⟩] =
      (runs [⟨0, "OK", none, none⟩, ⟨10, "LINK_DOWN", none, none⟩,
        ⟨20, "LINK_DOWN", none, none⟩, ⟨30, "LINK_DOWN", none, none⟩,
        ⟨40, "OK", none, none⟩]).map run_seg :=
  (C1_segmenter _ (by norm_num [List.chain'_cons])).1

/-! ### Per-day rollup lemmas -/

/-- First-match lookup with the `defaultdict` default. -/
def statsOf : List (ℤ × DayStats) → ℤ → DayStats
  | [], _ => dayZero
  | (k, v) :: rest, d => if k = d then v else statsOf rest d

/-- Updating a key rewrites its stats through `f`. -/
theorem statsOf_upd_same (m : List (ℤ × DayStats)) (d : ℤ) (f : DayStats → DayStats) :
    statsOf (upd_day d f m) d = f (statsOf m d) := by
  induction m with
  | nil => simp [upd_day, statsOf]
  | cons kv rest ih =>
    obtain ⟨k, v⟩ := kv
    by_cases hk : k = d
    · simp [upd_day, statsOf, hk]
    · simp [upd_day, statsOf, hk, ih]

/-- Updating one key leaves every other key's stats unchanged. -/
theorem statsOf_upd_ne (m : List (ℤ × DayStats)) (d d' : ℤ) (f : DayStats → DayStats)
    (h : d' ≠ d) : statsOf (upd_day d f m) d' = statsOf m d' := by
  have hne : d ≠ d' := Ne.symm h
  induction m with
  | nil => simp [upd_day, statsOf, hne]
  | cons kv rest ih =>
    obtain ⟨k, v⟩ := kv
    by_cases hk : k = d
    · simp [upd_day, statsOf, hk, hne, h]
    · by_cases hk' : k = d'
      · simp [upd_day, statsOf, hk, hk', hne, h]
      · simp [upd_day, statsOf, hk, hk', ih]

/-- The key list after an update: unchanged when present, else the new key
is appended. -/
theorem map_fst_upd (m : List (ℤ × DayStats)) (d : ℤ) (f : DayStats → DayStats) :
    (upd_day d f m).map Prod.fst =
      if d ∈ m.map Prod.fst then m.map Prod.fst else m.map Prod.fst ++ [d] := by
  induction m with
  | nil => simp [upd_day]
  | cons kv rest ih =>
    obtain ⟨k, v⟩ := kv
    by_cases hk : k = d
    · simp [upd_day, hk]
    · simp only [upd_day, hk, if_false, List.map_cons, ih, List.mem_cons]
      by_cases hd : d ∈ rest.map Prod.fst
      · simp [hd, Ne.symm hk]
      · simp [hd, Ne.symm hk, fun hh : d = k => hk hh.symm]

/-- Updates keep the keys duplicate-free. -/
theorem nodup_upd (m : List (ℤ × DayStats)) (d : ℤ) (f : DayStats → DayStats)
    (h : (m.map Prod.fst).Nodup) : ((upd_day d f m).map Prod.fst).Nodup := by
  rw [map_fst_upd]
  by_cases hd : d ∈ m.map Prod.fst
  · simpa [hd] using h
  · simp only [hd, if_false]
    exact List.nodup_append.mpr ⟨h, List.nodup_singleton d,
      by simpa [List.disjoint_singleton] using hd⟩

/-- Appending a default entry never changes any key's stats. -/
theorem statsOf_append_single (m : List (ℤ × DayStats)) (d d' : ℤ) :
    statsOf (m ++ [(d, dayZero)]) d' = statsOf m d' := by
  induction m with
  | nil => by_cases hd : d = d' <;> simp [statsOf, hd]
  | cons kv rest ih =>
    obtain ⟨k, v⟩ := kv
    by_cases hk : k = d' <;> simp [statsOf, hk, ih]

/-- `ensure_day` never changes any key's stats. -/
theorem statsOf_ensure (m : List (ℤ × DayStats)) (d d' : ℤ) :
    statsOf (ensure_day d m) d' = statsOf m d' := by
  unfold ensure_day
  by_cases hd : d ∈ m.map Prod.fst
  · simp [hd]
  · simp [hd, statsOf_append_single]

/-- Effect of accumulating one outage on a day's stats. -/
theorem statsOf_add_outage (m : List (ℤ × DayStats)) (s : Segment) (d : ℤ) :
    statsOf (add_outage m s) d =
      if dayOf s.start = d then
        { statsOf m d with outages := (statsOf m d).outages + 1,
                           outage_dur := (statsOf m d).outage_dur + s.dur }
      else statsOf m d := by
  unfold add_outage
  by_cases hd : dayOf s.start = d
  · rw [if_pos hd, hd, statsOf_upd_same]
  · rw [if_neg hd, statsOf_upd_ne _ _ _ _ (fun hh => hd hh.symm)]

/-- Effect of accumulating one degraded segment on a day's stats. -/
theorem statsOf_add_degraded (m : List (ℤ × DayStats)) (s : Segment) (d : ℤ) :
    statsOf (add_degraded m s) d =
      if dayOf s.start = d then
        { statsOf m d with degraded := (statsOf m d).degraded + 1,
                           degraded_dur := (statsOf m d).degraded_dur + s.dur }
      else statsOf m d := by
  unfold add_degraded
  by_cases hd : dayOf s.start = d
  · rw [if_pos hd, hd, statsOf_upd_same]
  · rw [if_neg hd, statsOf_upd_ne _ _ _ _ (fun hh => hd hh.symm)]

/-- Folding the outage list accumulates, per day, the count and total
duration of the outages starting that day. -/
theorem statsOf_fold_outages (outs : List Segment) :
    ∀ (m : List (ℤ × DayStats)) (d : ℤ),
      statsOf (outs.foldl add_outage m) d =
        { outage_dur := (statsOf m d).outage_dur +
            ((outs.filter fun s => decide (dayOf s.start = d)).map Segment.dur).sum,
          degraded_dur := (statsOf m d).degraded_dur,
          outages := (statsOf m d).outages +
            (outs.filter fun s => decide (dayOf s.start = d)).length,
          degraded := (statsOf m d).degraded } := by
  induction outs with
  | nil => intro m d; simp
  | cons s rest ih =>
    intro m d
    rw [List.foldl_cons, ih (add_outage m s) d, statsOf_add_outage]
    by_cases hd : dayOf s.start = d
    · rw [if_pos hd, List.filter_cons_of_pos (by simpa using hd), List.map_cons,
        List.sum_cons, List.length_cons]
      dsimp only
      simp only [DayStats.mk.injEq]
      refine ⟨by ring, trivial, by omega, trivial⟩
    · rw [if_neg hd, List.filter_cons_of_neg (by simpa using hd)]

/-- Folding the degraded list accumulates, per day, the count and total
duration of the degraded segments starting that day. -/
theorem statsOf_fold_degraded (degs : List Segment) :
    ∀ (m : List (ℤ × DayStats)) (d : ℤ),
      statsOf (degs.foldl add_degraded m) d =
        { outage_dur := (statsOf m d).outage_dur,
          degraded_dur := (statsOf m d).degraded_dur +
            ((degs.filter fun s => decide (dayOf s.start = d)).map Segment.dur).sum,
          outages := (statsOf m d).outages,
          degraded := (statsOf m d).degraded +
            (degs.filter fun s => decide (dayOf s.start = d)).length } := by
  induction degs with
  | nil => intro m d; simp
  | cons s rest ih =>
    intro m d
    rw [List.foldl_cons, ih (add_degraded m s) d, statsOf_add_degraded]
    by_cases hd : dayOf s.start = d
    · rw [if_pos hd, List.filter_cons_of_pos (by simpa using hd), List.map_cons,
        List.sum_cons, List.length_cons]
      dsimp only
      simp only [DayStats.mk.injEq]
      refine ⟨trivial, by ring, trivial, by omega⟩
    · rw [if_neg hd, List.filter_cons_of_neg (by simpa using hd)]

/-- The ensure-day fold never changes any day's stats. -/
theorem statsOf_fold_ensure (rows : List Sample) :
    ∀ (m : List (ℤ × DayStats)) (d : ℤ),
      statsOf (rows.foldl (fun m r => ensure_day (dayOf r.ts) m) m) d = statsOf m d := by
  induction rows with
  | nil => intro m d; rfl
  | cons r rest ih =>
    intro m d
    rw [List.foldl_cons, ih, statsOf_ensure]

/-- Key membership after an update. -/
theorem mem_fst_upd (m : List (ℤ × DayStats)) (dk d : ℤ) (f : DayStats → DayStats) :
    d ∈ (upd_day dk f m).map Prod.fst ↔ d ∈ m.map Prod.fst ∨ d = dk := by
  rw [map_fst_upd]
  by_cases hk : dk ∈ m.map Prod.fst
  · rw [if_pos hk]
    exact ⟨Or.inl, fun h => h.elim id fun hdk => hdk ▸ hk⟩
  · rw [if_neg hk]
    simp [List.mem_append]

/-- Key membership after `ensure_day`. -/
theorem mem_fst_ensure (m : List (ℤ × DayStats)) (dk d : ℤ) :
    d ∈ (ensure_day dk m).map Prod.fst ↔ d ∈ m.map Prod.fst ∨ d = dk := by
  unfold ensure_day
  by_cases hk : dk ∈ m.map Prod.fst
  · rw [if_pos hk]
    exact ⟨Or.inl, fun h => h.elim id fun hdk => hdk ▸ hk⟩
  · rw [if_neg hk]
    simp [List.mem_append]

/-- `ensure_day` keeps keys duplicate-free. -/
theorem nodup_ensure (m : List (ℤ × DayStats)) (dk : ℤ)
    (h : (m.map Prod.fst).Nodup) : ((ensure_day dk m).map Prod.fst).Nodup := by
  unfold ensure_day
  by_cases hk : dk ∈ m.map Prod.fst
  · simpa [hk] using h
  · rw [if_neg hk, List.map_append]
    exact List.nodup_append.mpr ⟨h, List.nodup_singleton dk,
      by simpa [List.disjoint_singleton] using hk⟩

/-- Keys after folding the outage list. -/
theorem mem_fst_fold_outages (outs : List Segment) :
    ∀ (m : List (ℤ × DayStats)) (d : ℤ),
      d ∈ (outs.foldl add_outage m).map Prod.fst ↔
        d ∈ m.map Prod.fst ∨ d ∈ outs.map fun s => dayOf s.start := by
  induction outs with
  | nil => intro m d; simp
  | cons s rest ih =>
    intro m d
    rw [List.foldl_cons, ih, List.map_cons]
    unfold add_outage
    rw [mem_fst_upd]
    simp [List.mem_cons, or_assoc, eq_comm, or_comm, or_left_comm]

/-- Keys after folding the degraded list. -/
theorem mem_fst_fold_degraded (degs : List Segment) :
    ∀ (m : List (ℤ × DayStats)) (d : ℤ),
      d ∈ (degs.foldl add_degraded m).map Prod.fst ↔
        d ∈ m.map Prod.fst ∨ d ∈ degs.map fun s => dayOf s.start := by
  induction degs with
  | nil => intro m d; simp
  | cons s rest ih =>
    intro m d
    rw [List.foldl_cons, ih, List.map_cons]
    unfold add_degraded
    rw [mem_fst_upd]
    simp [List.mem_cons, or_assoc, eq_comm, or_comm, or_left_comm]

/-- Keys after the ensure-day fold. -/
theorem mem_fst_fold_ensure (rows : List Sample) :
    ∀ (m : List (ℤ × DayStats)) (d : ℤ),
      d ∈ (rows.foldl (fun m r => ensure_day (dayOf r.ts) m) m).map Prod.fst ↔
        d ∈ m.map Prod.fst ∨ d ∈ rows.map fun r => dayOf r.ts := by
  induction rows with
  | nil => intro m d; simp
  | cons r rest ih =>
    intro m d
    rw [List.foldl_cons, ih, mem_fst_ensure, List.map_cons]
    simp [List.mem_cons, or_assoc, eq_comm, or_comm, or_left_comm]

/-- All three folds keep the key list duplicate-free. -/
theorem nodup_fold_outages (outs : List Segment) :
    ∀ m : List (ℤ × DayStats), (m.map Prod.fst).Nodup →
      ((outs.foldl add_outage m).map Prod.fst).Nodup := by
  induction outs with
  | nil => intro m h; exact h
  | cons s rest ih =>
    intro m h
    exact ih _ (nodup_upd _ _ _ h)

/-- Degraded-fold key nodup preservation. -/
theorem nodup_fold_degraded (degs : List Segment) :
    ∀ m : List (ℤ × DayStats), (m.map Prod.fst).Nodup →
      ((degs.foldl add_degraded m).map Prod.fst).Nodup := by
  induction degs with
  | nil => intro m h; exact h
  | cons s rest ih =>
    intro m h
    exact ih _ (nodup_upd _ _ _ h)

/-- Ensure-fold key nodup preservation. -/
theorem nodup_fold_ensure (rows : List Sample) :
    ∀ m : List (ℤ × DayStats), (m.map Prod.fst).Nodup →
      ((rows.foldl (fun m r => ensure_day (dayOf r.ts) m) m).map Prod.fst).Nodup := by
  induction rows with
  | nil => intro m h; exact h
  | cons r rest ih =>
    intro m h
    exact ih _ (nodup_ensure _ _ h)

/-- With duplicate-free keys, an entry determines its lookup. -/
theorem statsOf_eq_of_mem (m : List (ℤ × DayStats)) (d : ℤ) (v : DayStats)
    (hn : (m.map Prod.fst).Nodup) (hm : (d, v) ∈ m) : statsOf m d = v := by
  induction m with
  | nil => cases hm
  | cons kv rest ih =>
    obtain ⟨k, w⟩ := kv
    have hn2 : k ∉ rest.map Prod.fst ∧ (rest.map Prod.fst).Nodup :=
      List.nodup_cons.mp (by simpa using hn)
    rcases List.mem_cons.mp hm with heq | hrest
    · cases heq
      rw [statsOf, if_pos rfl]
    · have hk : k ≠ d := by
        intro hkd
        subst hkd
        exact hn2.1 (List.mem_map.mpr ⟨(k, v), hrest, rfl⟩)
      rw [statsOf, if_neg hk]
      exact ih hn2.2 hrest

/-- A key outside the map looks up to the default record. -/
theorem statsOf_not_mem (m : List (ℤ × DayStats)) (d : ℤ)
    (h : d ∉ m.map Prod.fst) : statsOf m d = dayZero := by
  induction m with
  | nil => rfl
  | cons kv rest ih =>
    obtain ⟨k, v⟩ := kv
    rw [statsOf, if_neg (fun hk => h (by simp [hk]))]
    exact ih fun hk => h (by simp [hk])

/-- Lookups are invariant under permutation when keys are
duplicate-free. -/
theorem statsOf_perm (m m' : List (ℤ × DayStats)) (hp : m.Perm m')
    (hn : (m.map Prod.fst).Nodup) (d : ℤ) : statsOf m d = statsOf m' d := by
  have hn' : (m'.map Prod.fst).Nodup := ((hp.map Prod.fst).nodup_iff).mp hn
  by_cases hd : d ∈ m.map Prod.fst
  · obtain ⟨p, hpm, hfst⟩ := List.mem_map.mp hd
    have hdm : (d, p.2) ∈ m := by
      rw [← hfst]
      simpa using hpm
    rw [statsOf_eq_of_mem m d p.2 hn hdm,
      statsOf_eq_of_mem m' d p.2 hn' (hp.mem_iff.mp hdm)]
  · rw [statsOf_not_mem m d hd,
      statsOf_not_mem m' d fun hmm => hd (((hp.map Prod.fst).mem_iff).mpr hmm)]

instance : IsTotal (ℤ × DayStats) fun a b => a.1 ≤ b.1 :=
  ⟨fun a b => le_total a.1 b.1⟩

instance : IsTrans (ℤ × DayStats) fun a b => a.1 ≤ b.1 :=
  ⟨fun _ _ _ h1 h2 => le_trans h1 h2⟩

/-- C7: the per-day rollup is sorted by date with duplicate-free keys; its
key set is exactly the dates of raw samples, outages and degraded
segments; and each entry's record counts and sums the durations of the
outages and degraded segments starting on that date (so a raw-sample date
with no events carries the zero record). -/
theorem C7_per_day (rows : List Sample) (outs degs : List Segment) :
    (per_day_summary rows outs degs).Pairwise (fun a b => a.1 ≤ b.1)
    ∧ ((per_day_summary rows outs degs).map Prod.fst).Nodup
    ∧ (∀ d : ℤ, d ∈ (per_day_summary rows outs degs).map Prod.fst ↔
        ((d ∈ rows.map fun r => dayOf r.ts) ∨ (d ∈ outs.map fun s => dayOf s.start)
          ∨ (d ∈ degs.map fun s => dayOf s.start)))
    ∧ (∀ e ∈ per_day_summary rows outs degs,
        e.2 = { outage_dur :=
                  ((outs.filter fun s => decide (dayOf s.start = e.1)).map Segment.dur).sum,
                degraded_dur :=
                  ((degs.filter fun s => decide (dayOf s.start = e.1)).map Segment.dur).sum,
                outages := (outs.filter fun s => decide (dayOf s.start = e.1)).length,
                degraded := (degs.filter fun s => decide (dayOf s.start = e.1)).length }) := by
  have hpre_eq : per_day_summary rows outs degs =
      (rows.foldl (fun m r => ensure_day (dayOf r.ts) m)
        (degs.foldl add_degraded (outs.foldl add_outage []))).insertionSort
          (fun a b => a.1 ≤ b.1) := rfl
  have hnodup_pre : ((rows.foldl (fun m r => ensure_day (dayOf r.ts) m)
      (degs.foldl add_degraded (outs.foldl add_outage []))).map Prod.fst).Nodup :=
    nodup_fold_ensure _ _ (nodup_fold_degraded _ _ (nodup_fold_outages _ _ (by simp)))
  have hperm : (per_day_summary rows outs degs).Perm
      (rows.foldl (fun m r => ensure_day (dayOf r.ts) m)
        (degs.foldl add_degraded (outs.foldl add_outage []))) := by
    rw [hpre_eq]
    exact List.perm_insertionSort _ _
  have hnodup : ((per_day_summary rows outs degs).map Prod.fst).Nodup :=
    ((hperm.map Prod.fst).nodup_iff).mpr hnodup_pre
  have hvals : ∀ d : ℤ, statsOf (rows.foldl (fun m r => ensure_day (dayOf r.ts) m)
      (degs.foldl add_degraded (outs.foldl add_outage []))) d =
      { outage_dur := ((outs.filter fun s => decide (dayOf s.start = d)).map Segment.dur).sum,
        degraded_dur := ((degs.filter fun s => decide (dayOf s.start = d)).map Segment.dur).sum,
        outages := (outs.filter fun s => decide (dayOf s.start = d)).length,
        degraded := (degs.filter fun s => decide (dayOf s.start = d)).length } := by
    intro d
    rw [statsOf_fold_ensure, statsOf_fold_degraded, statsOf_fold_outages]
    simp [statsOf, dayZero]
  refine ⟨?_, hnodup, ?_, ?_⟩
  · rw [hpre_eq]
    exact List.sorted_insertionSort _ _
  · intro d
    rw [List.Perm.mem_iff (hperm.map Prod.fst), mem_fst_fold_ensure,
      mem_fst_fold_degraded, mem_fst_fold_outages]
    simp only [List.map_nil, List.not_mem_nil, false_or]
    tauto
  · intro e he
    have hmem : (e.1, e.2) ∈ per_day_summary rows outs degs := by
      simpa using he
    have h1 : statsOf (per_day_summary rows outs degs) e.1 = e.2 :=
      statsOf_eq_of_mem _ _ _ hnodup hmem
    rw [← h1, statsOf_perm _ _ hperm hnodup e.1, hvals e.1]

/-- A concrete outage segment used to witness the per-day rollup. -/
def wseg : Segment :=
  { bucket := Bucket.OUTAGE, start := 10, end_ := 30, rows := 3,
    first_status := "LINK_DOWN" }

/-- The per-day record expected for `wseg` on day 0. -/
def wstats : DayStats :=
  { outage_dur := 20, degraded_dur := 0, outages := 1, degraded := 0 }

/-- Witness for C7: a single outage on day 0 yields the expected entry,
and the theorem's per-entry characterisation holds at it. -/
theorem C7_per_day_witness :
    ((0 : ℤ), wstats) ∈ per_day_summary [] [wseg] []
    ∧ wstats =
      { outage_dur := (([wseg].filter fun s => decide (dayOf s.start = 0)).map
          Segment.dur).sum,
        degraded_dur := ((([] : List Segment).filter
          fun s => decide (dayOf s.start = 0)).map Segment.dur).sum,
        outages := ([wseg].filter fun s => decide (dayOf s.start = 0)).length,
        degraded := (([] : List Segment).filter
          fun s => decide (dayOf s.start = 0)).length } := by
  have heval : per_day_summary [] [wseg] [] = [((0 : ℤ), wstats)] := by
    norm_num [per_day_summary, wseg, wstats, add_outage, upd_day, dayOf, dayZero,
      Segment.dur, List.insertionSort, List.orderedInsert]
  have hmem : ((0 : ℤ), wstats) ∈ per_day_summary [] [wseg] [] := by
    rw [heval]
    exact List.mem_singleton.mpr rfl
  exact ⟨hmem, (C7_per_day [] [wseg] []).2.2.2 _ hmem⟩

/-- Counterexample to C1 as literally stated for arbitrary input order:
on the out-of-order input `[ts 1 OK, ts 0 LINK_DOWN]` the segmenter's
output is not ordered by start time (starts are `[1, 0]`). -/
theorem C1_segmenter_counterexample :
    ¬(group_segments [⟨1, "OK", none, none⟩,
        ⟨0, "LINK_DOWN", none, none⟩]).Pairwise fun s t => s.start ≤ t.start := by
  intro h
  have heval : group_segments [⟨1, "OK", none, none⟩, ⟨0, "LINK_DOWN", none, none⟩] =
      [seg1 ⟨1, "OK", none, none⟩, seg1 ⟨0, "LINK_DOWN", none, none⟩] := rfl
  rw [heval] at h
  have h01 := (List.pairwise_cons.mp h).1 _ (List.mem_singleton.mpr rfl)
  norm_num [seg1] at h01
